import Mathlib

/-!
Verification of the `gpyconf` event dispatcher (`src/gpyconf/events.py`) and,
modelled from the specification, its field-registry round-trip behaviour.

Callbacks are identified by natural numbers.  The mutable Python attribute
`callback.__dict__["lazy"]` is modelled as a flag table `lazyFlag : Nat → Bool`
carried in the dispatcher state: `register_event` writes it exactly where the
Python code writes the attribute, so the table is shared across registrations
of the same callback object, just as the attribute is.

Exceptions are modelled explicitly: an operation returns the raised error (if
any) together with the state after the call, so a mutation made before a raise
persists, exactly as in Python.
-/

namespace Gpyconf

/-- Python errors raised by the dispatcher: `InvalidEvent(event)`
(events.py line 7) and the `TypeError` produced by calling a non-callable. -/
inductive PyError where
  | invalidEvent (event : String)
  | typeError
deriving DecidableEq, Repr

/-- Predicate: `isInvalid e` holds exactly when `e` is a raised `InvalidEvent`. -/
def isInvalid : Option PyError → Bool
  | some (.invalidEvent _) => true
  | _ => false

/-- One callback invocation: the callback id and its positional arguments.
An argument is either an event-name string prepended by the dispatcher
(`Sum.inl`) or one of the emitted values (`Sum.inr`). -/
structure Call (α : Type) where
  cb : Nat
  args : List (String ⊕ α)
deriving DecidableEq, Repr

/-- State of an `EventRegister` (events.py lines 77-85): the `strict` flag,
the `__events__` allow-list (meaningful when strict), the per-event callback
lists `self.events` (a `defaultdict(list)`, kept as an insertion-ordered
association list), the `self.all_events_listener` list, and the `lazy`
attribute of every callback object. -/
structure EventRegister where
  strict : Bool
  eventsList : List String
  events : List (String × List Nat)
  all_events_listener : List Nat
  lazyFlag : Nat → Bool

/-- Lookup of `self.events[event]` without insertion: `event in self.events`
guards every read in `emit`, so a missing key reads as the empty list and the
`defaultdict` is never extended by `emit`. -/
def lookupList (m : List (String × List Nat)) (event : String) : List Nat :=
  match m with
  | [] => []
  | (k, v) :: rest => if k = event then v else lookupList rest event

/-- Model of `self.events[event].append(callback)` (events.py line 118):
append to the list held for `event`, creating it when absent. -/
def appendCallback (m : List (String × List Nat)) (event : String) (cb : Nat) :
    List (String × List Nat) :=
  match m with
  | [] => [(event, [cb])]
  | (k, v) :: rest =>
    if k = event then (k, v ++ [cb]) :: rest else (k, v) :: appendCallback rest event cb

/-- Pointwise update of the callback flag table, modelling the statement
`callback.__dict__["lazy"] = lazy`. -/
def setFlag (f : Nat → Bool) (cb : Nat) (b : Bool) : Nat → Bool :=
  fun x => if x = cb then b else f x

/-- Model of `EventRegister.register_event` (events.py lines 102-118).  The
`lazy` attribute of the callback is written first; then a registration under
the name "all" goes to `all_events_listener` (bypassing the strict check),
then the strict check may raise `InvalidEvent`, and otherwise the callback is
appended to the list for `event`.  Returns the raised event name (if any)
together with the state after the call; a mutation made before the raise
persists. -/
def register_event (r : EventRegister) (event : String) (cb : Nat) (lazy : Bool) :
    Option String × EventRegister :=
  let r1 : EventRegister := { r with lazyFlag := setFlag r.lazyFlag cb lazy }
  if event = "all" then
    (none, { r1 with all_events_listener := r1.all_events_listener ++ [cb] })
  else if r1.strict = true ∧ event ∉ r1.eventsList then
    (some event, r1)
  else
    (none, { r1 with events := appendCallback r1.events event cb })

/-- First loop of `emit` (events.py lines 138-143): walk the callbacks
registered for the event in order; collect the lazy ones (in order) into the
`lazy_callbacks` list, call the others with the emitted arguments. -/
def eventLoop {α : Type} (flag : Nat → Bool) (args : List α) :
    List Nat → List (Call α) × List Nat
  | [] => ([], [])
  | f :: rest =>
    let done := eventLoop flag args rest
    if flag f then (done.1, f :: done.2)
    else (⟨f, args.map Sum.inr⟩ :: done.1, done.2)

/-- Second loop of `emit` (events.py lines 146-150): walk the all-listeners
in order; a non-lazy one is called as `func(event, *args)`.  For a lazy one,
line 148 evaluates `partial(event, func)` with the event-name *string* in
the callable slot — `functools.partial` rejects a non-callable first
argument at construction, so the loop raises `TypeError` right there and
`emit` aborts: later all-listeners are not called and nothing is deferred
for the lazy all-listener. -/
def allLoop {α : Type} (flag : Nat → Bool) (event : String) (args : List α) :
    List Nat → List (Call α) × Option PyError
  | [] => ([], none)
  | f :: rest =>
    if flag f then ([], some .typeError)
    else
      let done := allLoop flag event args rest
      (⟨f, Sum.inl event :: args.map Sum.inr⟩ :: done.1, done.2)

/-- Third loop of `emit` (events.py lines 152-153): call each collected lazy
callback with the emitted arguments.  Only lazy event-specific callbacks can
reach this loop: a lazy all-listener makes the second loop raise before
anything is appended for it. -/
def lazyLoop {α : Type} (args : List α) : List Nat → List (Call α)
  | [] => []
  | f :: rest => ⟨f, args.map Sum.inr⟩ :: lazyLoop args rest

/-- Body of `emit` after the strict check: run the loop over the callbacks
of the event, then the loop over the all-listeners; when the latter raises
`TypeError` the exception propagates and the lazy loop never runs, otherwise
the collected lazy callbacks run last. -/
def runLoops {α : Type} (flag : Nat → Bool) (event : String) (args : List α)
    (evCbs allCbs : List Nat) : List (Call α) × Option PyError :=
  match allLoop flag event args allCbs with
  | (calls2, some e) => ((eventLoop flag args evCbs).1 ++ calls2, some e)
  | (calls2, none) =>
    ((eventLoop flag args evCbs).1 ++ calls2 ++
      lazyLoop args (eventLoop flag args evCbs).2, none)

/-- Model of `EventRegister.emit` (events.py lines 124-153): strict check, then the
three loops.  Returns the sequence of callback invocations actually performed,
in order (truncated where an exception aborts), and the raised error (if
any).  `emit` never mutates the register, so no state is returned. -/
def emit {α : Type} (r : EventRegister) (event : String) (args : List α) :
    List (Call α) × Option PyError :=
  if r.strict = true ∧ event ∉ r.eventsList then ([], some (.invalidEvent event))
  else runLoops r.lazyFlag event args (lookupList r.events event) r.all_events_listener

/-- A freshly constructed non-strict `EventRegister` (events.py lines 80-85):
empty mappings; no callback object carries a `lazy` attribute yet, and `emit`
only reads flags of registered callbacks, so the initial table is arbitrary. -/
def emptyRegister : EventRegister :=
  { strict := false, eventsList := [], events := [], all_events_listener := [],
    lazyFlag := fun _ => false }

/-- A freshly constructed strict `EventRegister`: `__events__` is declared, so
`__init__` sets `strict = True` (events.py lines 81-83). -/
def strictRegister (evs : List String) : EventRegister :=
  { strict := true, eventsList := evs, events := [], all_events_listener := [],
    lazyFlag := fun _ => false }

/-- Name normalization used by `GEventRegister.__getattr__` (events.py
line 173, `event.replace("_", "-")`): every underscore becomes a hyphen. -/
def normalize (event : String) : String :=
  ⟨event.data.map (fun c => if c = '_' then '-' else c)⟩

/-- Model of `GEventRegister.__getattr__` (events.py lines 169-173):
attribute-style registration normalizes the attribute name and then behaves
like the base-class `__getattr__`, i.e. it registers via `register_event`
under the normalized name.  (Inherited `register_event` and `emit` are *not*
overridden and do not normalize.) -/
def g_attr_register (r : EventRegister) (event : String) (cb : Nat) (lazy : Bool) :
    Option String × EventRegister :=
  register_event r (normalize event) cb lazy

/-- Model of `GSignals.connect` (events.py lines 195-197): delegates to
`register_event` with the signal name unchanged. -/
def connect (r : EventRegister) (signal : String) (cb : Nat) (lazy : Bool) :
    Option String × EventRegister :=
  register_event r signal cb lazy

/-- Model of `GSignals.emit` (events.py lines 199-201):
`self.events.emit(signal, self, *args)` — the emitting object is inserted at
the front of the emitted argument list, and the signal name is passed
unchanged. -/
def gsignals_emit {α : Type} (r : EventRegister) (signal : String) (sender : α)
    (args : List α) : List (Call α) × Option PyError :=
  emit r signal (sender :: args)

/-! Registers used by the concrete evaluations below, built through
`register_event` itself. -/

/-- Register with one non-lazy callback (id 1) for event "e". -/
def rC1a : EventRegister := (register_event emptyRegister "e" 1 false).2

/-- Previous register with, in addition, a lazy all-listener (id 2). -/
def rC1b : EventRegister := (register_event rC1a "all" 2 true).2

/-- Register with a lazy all-listener (id 3). -/
def rC2a : EventRegister := (register_event emptyRegister "all" 3 true).2

/-- Previous register with, in addition, a non-lazy all-listener (id 4). -/
def rC2b : EventRegister := (register_event rC2a "all" 4 false).2

/-- Register with callback 0 registered lazily and callback 1 non-lazily,
both for event "a". -/
def rC8a : EventRegister :=
  (register_event (register_event emptyRegister "a" 0 true).2 "a" 1 false).2

/-- Previous register after re-registering the *same* callback 0 non-lazily
for the different event "b". -/
def rC8b : EventRegister := (register_event rC8a "b" 0 false).2

/-! Field registry.  The configuration / field-collection code of this
repository is not part of the excerpt (only its inheritance unit test is),
so the definitions below are modelled from the specification, sections 3,
4.1 and 8. -/

/-- Modelled from the spec: a Field is "a named, typed slot with a current
value and a default"; the type contract of a field subtype is
`validate(raw) -> value | ValidationError` and a default.  The missing
source is the field classes of gpyconf. -/
structure FieldDecl (V : Type) where
  name : String
  default : V
  valid : V → Bool

/-- Modelled from the spec: the persistence backend read,
`read(key) -> value | absent`.  The missing source is the gpyconf storage
backend. -/
def readKey {V : Type} : List (String × V) → String → Option V
  | [], _ => none
  | (k, v) :: rest, key => if k = key then some v else readKey rest key

/-- Modelled from the spec: the persistence backend `write(key, value)`:
overwrite the value held for the key, creating it when absent. -/
def writeKey {V : Type} : List (String × V) → String → V → List (String × V)
  | [], key, v => [(key, v)]
  | (k, w) :: rest, key, v =>
    if k = key then (key, v) :: rest else (k, w) :: writeKey rest key v

/-- Modelled from the spec: merging one declared field into the collected
mapping — "same name replaces, not duplicates" (most-derived wins, position
kept), a new name is appended. -/
def addField {V : Type} : List (FieldDecl V) → FieldDecl V → List (FieldDecl V)
  | [], f => [f]
  | g :: rest, f => if g.name = f.name then f :: rest else g :: addField rest f

/-- Modelled from the spec: the `fields` property — walk the inheritance
chain most-base-first, collecting every declared field, subclass fields
overriding same-named ancestor fields.  The missing source is the
configuration metaclass of gpyconf. -/
def collectFields {V : Type} (chain : List (List (FieldDecl V))) : List (FieldDecl V) :=
  chain.foldl (fun acc cls => cls.foldl addField acc) []

/-- Modelled from the spec: construction — every field loads its value from
storage, falling back to its declared default when the key is absent.  An
instance is the ordered list of fields paired with their current values. -/
def construct {V : Type} (chain : List (List (FieldDecl V)))
    (storage : List (String × V)) : List (FieldDecl V × V) :=
  (collectFields chain).map (fun f => (f, (readKey storage f.name).getD f.default))

/-- Modelled from the spec: attribute read of the current value of the named
field. -/
def getValue {V : Type} : List (FieldDecl V × V) → String → Option V
  | [], _ => none
  | (f, v) :: rest, name => if f.name = name then some v else getValue rest name

/-- Modelled from the spec: attribute assignment — the value is validated
against the field type; an out-of-domain value fails with `ValidationError`
(modelled as `none`). -/
def setValue {V : Type} : List (FieldDecl V × V) → String → V →
    Option (List (FieldDecl V × V))
  | [], _, _ => none
  | (f, w) :: rest, name, v =>
    if f.name = name then
      if f.valid v then some ((f, v) :: rest) else none
    else
      (setValue rest name v).map (fun es => (f, w) :: es)

/-- Sequence of attribute assignments, failing as soon as one fails. -/
def applyAssignments {V : Type} (entries : List (FieldDecl V × V)) :
    List (String × V) → Option (List (FieldDecl V × V))
  | [] => some entries
  | (n, v) :: rest =>
    match setValue entries n v with
    | none => none
    | some es => applyAssignments es rest

/-- Modelled from the spec: `save()` "writes every field current value to
persistent storage keyed by field name". -/
def save {V : Type} (entries : List (FieldDecl V × V))
    (storage : List (String × V)) : List (String × V) :=
  entries.foldl (fun st p => writeKey st p.1.name p.2) storage

/-! Concrete three-level inheritance chain mirroring the inheritance unit
test (src/examples/unittests/inheritance.py): a base field, a middle field
and a leaf field, with values assigned, saved and reloaded. -/

/-- Three-level chain: base declares "x", the middle class adds "y", the
leaf adds "z". -/
def wChain : List (List (FieldDecl Int)) :=
  [[⟨"x", 0, fun _ => true⟩], [⟨"y", 1, fun _ => true⟩], [⟨"z", 2, fun _ => true⟩]]

/-- Assignments performed on the instance before saving. -/
def wAsgn : List (String × Int) := [("x", 42), ("y", 7), ("z", 3)]

/-- Instance state after the assignments. -/
def wInst : List (FieldDecl Int × Int) :=
  [(⟨"x", 0, fun _ => true⟩, 42), (⟨"y", 1, fun _ => true⟩, 7),
    (⟨"z", 2, fun _ => true⟩, 3)]

/-! Helper lemmas about the emission loops. -/

/-- Errors produced by the all-listener loop are never `InvalidEvent`: the
loop either finishes cleanly or dies with the construction-time `TypeError`
of the swapped partial. -/
theorem isInvalid_allLoop {α : Type} (flag : Nat → Bool) (event : String)
    (args : List α) (l : List Nat) :
    isInvalid (allLoop flag event args l).2 = false := by
  induction l with
  | nil => rfl
  | cons f t ih =>
    by_cases hb : flag f
    · simp [allLoop, hb, isInvalid]
    · simpa [allLoop, hb] using ih

/-- Error component of the loop body: exactly the error of the all-listener
loop. -/
theorem runLoops_snd {α : Type} (flag : Nat → Bool) (event : String)
    (args : List α) (evCbs allCbs : List Nat) :
    (runLoops flag event args evCbs allCbs).2 = (allLoop flag event args allCbs).2 := by
  cases h : allLoop flag event args allCbs with
  | mk calls2 err => cases err <;> simp [runLoops, h]

/-- Appending a callback extends the list held for that event at its end. -/
theorem lookupList_appendCallback_self (m : List (String × List Nat)) (event : String)
    (cb : Nat) :
    lookupList (appendCallback m event cb) event = lookupList m event ++ [cb] := by
  induction m with
  | nil => simp [appendCallback, lookupList]
  | cons p rest ih =>
    obtain ⟨k, v⟩ := p
    by_cases h : k = event
    · simp [appendCallback, lookupList, h]
    · simp [appendCallback, lookupList, h, ih]

/-- Appending a callback for one event leaves every other list for a
different name unchanged. -/
theorem lookupList_appendCallback_other (m : List (String × List Nat))
    (event e2 : String) (cb : Nat) (h : e2 ≠ event) :
    lookupList (appendCallback m event cb) e2 = lookupList m e2 := by
  induction m with
  | nil => simp [appendCallback, lookupList, Ne.symm h]
  | cons p rest ih =>
    obtain ⟨k, v⟩ := p
    by_cases hk : k = event
    · subst hk
      simp [appendCallback, lookupList, Ne.symm h]
    · simp [appendCallback, lookupList, hk, ih]

/-- Every call made by the first loop carries exactly the emitted arguments. -/
theorem eventLoop_call_args {α : Type} (flag : Nat → Bool) (args : List α)
    (l : List Nat) (c : Call α) (hc : c ∈ (eventLoop flag args l).1) :
    c.args = args.map Sum.inr := by
  induction l with
  | nil => simp [eventLoop] at hc
  | cons f t ih =>
    by_cases hb : flag f
    · simp [eventLoop, hb] at hc
      exact ih hc
    · simp [eventLoop, hb] at hc
      rcases hc with hc | hc
      · rw [hc]
      · exact ih hc

/-- Every call made by the second loop carries the event name followed by the
emitted arguments. -/
theorem allLoop_call_args {α : Type} (flag : Nat → Bool) (event : String)
    (args : List α) (l : List Nat) (c : Call α) (hc : c ∈ (allLoop flag event args l).1) :
    c.args = Sum.inl event :: args.map Sum.inr := by
  induction l with
  | nil => simp [allLoop] at hc
  | cons f t ih =>
    by_cases hb : flag f
    · simp [allLoop, hb] at hc
    · simp [allLoop, hb] at hc
      rcases hc with hc | hc
      · rw [hc]
      · exact ih hc

/-- Every call made by the lazy loop carries exactly the emitted arguments. -/
theorem lazyLoop_call_args {α : Type} (args : List α) (l : List Nat)
    (c : Call α) (hc : c ∈ lazyLoop args l) : c.args = args.map Sum.inr := by
  induction l with
  | nil => simp [lazyLoop] at hc
  | cons f t ih =>
    simp [lazyLoop] at hc
    rcases hc with hc | hc
    · rw [hc]
    · exact ih hc

/-- Shape of the arguments of any call performed by the loop body: either
exactly the emitted arguments, or the event name followed by them. -/
theorem runLoops_call_args {α : Type} (flag : Nat → Bool) (event : String)
    (args : List α) (evCbs allCbs : List Nat) (c : Call α)
    (hc : c ∈ (runLoops flag event args evCbs allCbs).1) :
    c.args = args.map Sum.inr ∨ c.args = Sum.inl event :: args.map Sum.inr := by
  cases h : allLoop flag event args allCbs with
  | mk calls2 err =>
    cases err with
    | some e =>
      simp [runLoops, h] at hc
      rcases hc with hc | hc
      · exact Or.inl (eventLoop_call_args _ _ _ _ hc)
      · exact Or.inr (allLoop_call_args flag event args allCbs c (by rw [h]; exact hc))
    | none =>
      simp [runLoops, h] at hc
      rcases hc with hc | hc | hc
      · exact Or.inl (eventLoop_call_args _ _ _ _ hc)
      · exact Or.inr (allLoop_call_args flag event args allCbs c (by rw [h]; exact hc))
      · exact Or.inl (lazyLoop_call_args _ _ _ hc)

/-- Shape of the arguments of any call performed by `emit`: either exactly
the emitted arguments, or the event name followed by them. -/
theorem emit_call_args {α : Type} (r : EventRegister) (event : String)
    (args : List α) (c : Call α) (hc : c ∈ (emit r event args).1) :
    c.args = args.map Sum.inr ∨ c.args = Sum.inl event :: args.map Sum.inr := by
  unfold emit at hc
  by_cases hs : r.strict = true ∧ event ∉ r.eventsList
  · rw [if_pos hs] at hc
    simp at hc
  · rw [if_neg hs] at hc
    exact runLoops_call_args _ _ _ _ _ _ hc

/-! Claim theorems. -/

/-- Claim C1 (code bug): the claimed emission order breaks as soon as a lazy
all-listener exists.  With callback 1 registered non-lazily for "e" and
callback 2 registered as a lazy all-listener, `emit "e" [5]` performs only
the call to 1 and then raises `TypeError`: line 148 of events.py builds
`partial(event, func)` with the event-name *string* in the callable slot
(the arguments are swapped), and `functools.partial` raises at construction
in the all-listener loop.  Callback 2 is never invoked, contrary to the
claimed final lazy phase. -/
theorem emit_lazy_all_listener_crashes :
    emit rC1b "e" ([5] : List Nat) =
      ([⟨1, [Sum.inr 5]⟩], some PyError.typeError) := by decide

/-- Claim C2 (code bug): with a lazy all-listener (callback 3) registered
before a non-lazy one (callback 4), `emit "x" [7]` performs *zero* calls:
the all-listener loop reaches callback 3 first and the construction of the
swapped `partial(event, func)` (events.py line 148) raises `TypeError`
immediately, so neither all-listener is ever invoked — refuting the claimed
invocation of every all-listener with the event name first. -/
theorem lazy_all_listener_never_called :
    emit rC2b "x" ([7] : List Nat) = ([], some PyError.typeError) := by decide

/-- Claim C3 (counterexample): on a strict dispatcher whose allow-list is
["hi"], registering under the name "all" — a name outside the allow-list —
raises nothing, because `register_event` tests `event == "all"` before the
strict check (events.py lines 113-116).  The claim requires `InvalidEvent`
here. -/
theorem strict_register_all_no_raise :
    (register_event (strictRegister ["hi"]) "all" 0 false).1 = none := by decide

/-- Claim C3 (amended): on a strict dispatcher, for every name other than
"all" outside the allow-list both `register_event` and `emit` raise
`InvalidEvent` carrying that name; for every name inside the allow-list
neither operation raises `InvalidEvent`. -/
theorem strict_gate_names (r : EventRegister) (event : String) (cb : Nat)
    (lazy : Bool) {α : Type} (args : List α) (hs : r.strict = true) :
    (event ≠ "all" → event ∉ r.eventsList →
      (register_event r event cb lazy).1 = some event ∧
      (emit r event args).2 = some (.invalidEvent event)) ∧
    (event ∈ r.eventsList →
      (register_event r event cb lazy).1 = none ∧
      isInvalid (emit r event args).2 = false) := by
  constructor
  · intro hne hnm
    constructor
    · simp [register_event, hne, hs, hnm]
    · simp [emit, hs, hnm]
  · intro hm
    constructor
    · by_cases ha : event = "all" <;> simp [register_event, ha, hs, hm]
    · have hgate : ¬(r.strict = true ∧ event ∉ r.eventsList) := by simp [hm]
      unfold emit
      rw [if_neg hgate, runLoops_snd]
      exact isInvalid_allLoop _ _ _ _

/-- Witness for the amended claim C3 at a concrete strict dispatcher. -/
theorem strict_gate_names_witness :
    (strictRegister ["hi"]).strict = true ∧
    ("hi" ∈ (strictRegister ["hi"]).eventsList →
      (register_event (strictRegister ["hi"]) "hi" 0 false).1 = none ∧
      isInvalid (emit (strictRegister ["hi"]) "hi" ([] : List Nat)).2 = false) :=
  ⟨rfl, (strict_gate_names (strictRegister ["hi"]) "hi" 0 false ([] : List Nat) rfl).2⟩

/-- Claim C4 (counterexample): on the strict dispatcher with allow-list
["a"], registering callback 5 lazily under "b" raises `InvalidEvent`, yet
the passed callback is *not* unchanged: its lazy attribute was already set
to `True` (it was `False` before), because line 112 of events.py mutates the
callback before the strict check. -/
theorem invalid_register_mutates_callback :
    (register_event (strictRegister ["a"]) "b" 5 true).1 = some "b" ∧
    (register_event (strictRegister ["a"]) "b" 5 true).2.lazyFlag 5 = true ∧
    (strictRegister ["a"]).lazyFlag 5 = false := by
  refine ⟨by decide, by decide, rfl⟩

/-- Claim C4 (amended): when `register_event` raises `InvalidEvent` the
registration mapping and the all-listener list are unchanged, and when
`emit` raises `InvalidEvent` no callback has been invoked — each atomicity
conclusion following from its own raise alone — but the lazy attribute of
the callback passed to `register_event` has already been written. -/
theorem invalid_raise_preserves_lists (r : EventRegister) (event : String)
    (cb : Nat) (lazy : Bool) {α : Type} (args : List α) (e1 e2 : String) :
    ((register_event r event cb lazy).1 = some e1 →
      (register_event r event cb lazy).2.events = r.events ∧
      (register_event r event cb lazy).2.all_events_listener = r.all_events_listener ∧
      (register_event r event cb lazy).2.lazyFlag cb = lazy) ∧
    ((emit r event args).2 = some (.invalidEvent e2) →
      (emit r event args).1 = []) := by
  constructor
  · intro h1
    by_cases ha : event = "all"
    · simp [register_event, ha] at h1
    · by_cases hg : r.strict = true ∧ event ∉ r.eventsList
      · refine ⟨?_, ?_, ?_⟩ <;> simp [register_event, ha, hg, setFlag]
      · simp [register_event, ha, hg] at h1
  · intro h2
    by_cases hg : r.strict = true ∧ event ∉ r.eventsList
    · unfold emit
      rw [if_pos hg]
    · exfalso
      have hfalse := isInvalid_allLoop r.lazyFlag event args r.all_events_listener
      have hsnd : (emit r event args).2 =
          (allLoop r.lazyFlag event args r.all_events_listener).2 := by
        unfold emit
        rw [if_neg hg, runLoops_snd]
      rw [← hsnd, h2] at hfalse
      simp [isInvalid] at hfalse

/-- Witness for the amended claim C4: a strict dispatcher with allow-list
["a"].  Registering callback 5 under "b" raises and preserves both lists;
emitting under "all" — where `register_event` would *not* raise — raises
`InvalidEvent` with no callback invoked. -/
theorem invalid_raise_preserves_lists_witness :
    ((register_event (strictRegister ["a"]) "b" 5 true).1 = some "b" ∧
      (register_event (strictRegister ["a"]) "b" 5 true).2.events =
        (strictRegister ["a"]).events ∧
      (register_event (strictRegister ["a"]) "b" 5 true).2.all_events_listener =
        (strictRegister ["a"]).all_events_listener ∧
      (register_event (strictRegister ["a"]) "b" 5 true).2.lazyFlag 5 = true) ∧
    ((emit (strictRegister ["a"]) "all" ([] : List Nat)).2 =
        some (.invalidEvent "all") ∧
      (emit (strictRegister ["a"]) "all" ([] : List Nat)).1 = []) :=
  ⟨⟨by decide,
    (invalid_raise_preserves_lists (strictRegister ["a"]) "b" 5 true
      ([] : List Nat) "b" "b").1 (by decide)⟩,
   ⟨by decide,
    (invalid_raise_preserves_lists (strictRegister ["a"]) "all" 0 false
      ([] : List Nat) "b" "all").2 (by decide)⟩⟩

/-- Claim C5 (confirmed): on a non-strict dispatcher, emitting a name with
no registered callbacks and no all-listeners performs no call and raises
nothing; `emit` reads but never writes the registration state, so the state
is trivially unchanged. -/
theorem emit_unregistered_noop (r : EventRegister) (event : String) {α : Type}
    (args : List α) (h1 : r.strict = false)
    (h2 : lookupList r.events event = []) (h3 : r.all_events_listener = []) :
    emit r event args = ([], none) := by
  simp [emit, runLoops, h1, h2, h3, eventLoop, allLoop, lazyLoop]

/-- Witness for claim C5: a fresh dispatcher and the event "foo". -/
theorem emit_unregistered_noop_witness :
    emptyRegister.strict = false ∧
    lookupList emptyRegister.events "foo" = [] ∧
    emptyRegister.all_events_listener = [] ∧
    emit emptyRegister "foo" ([] : List Nat) = ([], none) :=
  ⟨rfl, rfl, rfl, emit_unregistered_noop emptyRegister "foo" ([] : List Nat) rfl rfl rfl⟩

/-- Claim C6 (counterexample): `GSignals.connect` registers through the
inherited `register_event`, which does *not* normalize names.  Registering
callback 0 under "on_foo_bar" via `connect`, emitting under "on_foo_bar"
invokes it but emitting under "on-foo-bar" invokes nothing — the two
spellings do not address the same callback list, refuting the claim that
every name used for registration or lookup is normalized. -/
theorem underscore_hyphen_not_identified :
    (emit (connect emptyRegister "on_foo_bar" 0 false).2 "on_foo_bar"
      ([] : List Nat)).1 = [⟨0, []⟩] ∧
    (emit (connect emptyRegister "on_foo_bar" 0 false).2 "on-foo-bar"
      ([] : List Nat)).1 = [] := by decide

/-- Claim C6 (amended): only attribute-style registration
(`GEventRegister.__getattr__`) normalizes underscores to hyphens; explicit
`register_event`, `connect` and `emit` use the given name verbatim.  Hence
attribute-style registrations under two names that normalize alike address
the same callback list and produce identical dispatcher states. -/
theorem attr_register_normalizes (r : EventRegister) (e1 e2 : String)
    (cb : Nat) (lazy : Bool) (h : normalize e1 = normalize e2) :
    g_attr_register r e1 cb lazy = g_attr_register r e2 cb lazy := by
  unfold g_attr_register
  rw [h]

/-- Witness for the amended claim C6 at the names "on_foo_bar" and
"on-foo-bar". -/
theorem attr_register_normalizes_witness :
    normalize "on_foo_bar" = normalize "on-foo-bar" ∧
    g_attr_register emptyRegister "on_foo_bar" 0 false =
      g_attr_register emptyRegister "on-foo-bar" 0 false :=
  ⟨by decide, attr_register_normalizes emptyRegister "on_foo_bar" "on-foo-bar" 0 false (by decide)⟩

/-- Claim C7 (counterexample): with callback 0 registered as a non-lazy
all-listener, `GSignals.emit` of signal "s" from sender 99 invokes it with
the *signal name* first and the emitting object only second — the emitting
object is not the first positional argument of every callback. -/
theorem gsignals_all_listener_sender_second :
    (gsignals_emit (register_event emptyRegister "all" 0 false).2 "s" (99 : Nat)
      []).1 = [⟨0, [Sum.inl "s", Sum.inr 99]⟩] := by decide

/-- Claim C7 (amended): `GSignals.emit` inserts the emitting object at the
front of the emitted arguments for every performed call: event-specific
callbacks (lazy or not) receive the sender first, all-listeners receive the
signal name first and the sender immediately after it. -/
theorem gsignals_sender_prepended {α : Type} (r : EventRegister)
    (signal : String) (sender : α) (args : List α) (c : Call α)
    (hc : c ∈ (gsignals_emit r signal sender args).1) :
    c.args = Sum.inr sender :: args.map Sum.inr ∨
    c.args = Sum.inl signal :: Sum.inr sender :: args.map Sum.inr :=
  emit_call_args r signal (sender :: args) c hc

/-- Witness for the amended claim C7: one event-specific callback, signal
"e", sender 5. -/
theorem gsignals_sender_prepended_witness :
    (⟨0, [Sum.inr 5]⟩ : Call Nat) ∈
      (gsignals_emit (register_event emptyRegister "e" 0 false).2 "e" (5 : Nat) []).1 ∧
    ((⟨0, [Sum.inr 5]⟩ : Call Nat).args = [Sum.inr 5] ∨
      (⟨0, [Sum.inr 5]⟩ : Call Nat).args = [Sum.inl "e", Sum.inr 5]) :=
  ⟨by decide, by
    have := gsignals_sender_prepended
      (register_event emptyRegister "e" 0 false).2 "e" (5 : Nat) []
      ⟨0, [Sum.inr 5]⟩ (by decide)
    exact this⟩

/-- Claim C8 (counterexample): callback 0 is registered lazily for "a"
(then callback 1 non-lazily for "a"); before any further registration,
emitting "a" runs 1 first and 0 last.  After re-registering the *same*
callback 0 non-lazily under the different event "b", emitting "a" runs 0
first: the later registration overwrote the lazy flag of the earlier one,
refuting the claimed independence of registrations. -/
theorem relazy_overwrites_flag :
    (emit rC8a "a" ([] : List Nat)).1 = [⟨1, []⟩, ⟨0, []⟩] ∧
    (emit rC8b "a" ([] : List Nat)).1 = [⟨0, []⟩, ⟨1, []⟩] := by decide

/-- Claim C8 (amended): each successful registration appends the callback at
the end of the ordered list for its event, leaving the lists of other events
unchanged — but the lazy flag is stored on the callback object itself: the
registration sets it for the callback (affecting all of its registrations)
and leaves the flags of other callbacks unchanged. -/
theorem register_appends_and_sets_flag (r : EventRegister) (event : String)
    (cb : Nat) (lazy : Bool) (e2 : String) (cb2 : Nat)
    (h : (register_event r event cb lazy).1 = none) :
    (register_event r event cb lazy).2.lazyFlag cb = lazy ∧
    (cb2 ≠ cb → (register_event r event cb lazy).2.lazyFlag cb2 = r.lazyFlag cb2) ∧
    (event ≠ "all" →
      lookupList (register_event r event cb lazy).2.events event =
        lookupList r.events event ++ [cb]) ∧
    (e2 ≠ event →
      lookupList (register_event r event cb lazy).2.events e2 =
        lookupList r.events e2) := by
  by_cases ha : event = "all"
  · subst ha
    refine ⟨?_, ?_, ?_, ?_⟩
    · simp [register_event, setFlag]
    · intro hne
      simp [register_event, setFlag, hne]
    · intro hne
      exact absurd rfl hne
    · intro _
      simp [register_event]
  · by_cases hg : r.strict = true ∧ event ∉ r.eventsList
    · simp [register_event, ha, hg] at h
    · refine ⟨?_, ?_, ?_, ?_⟩
      · simp [register_event, ha, hg, setFlag]
      · intro hne
        simp [register_event, ha, hg, setFlag, hne]
      · intro _
        simp [register_event, ha, hg, lookupList_appendCallback_self]
      · intro hne
        simp [register_event, ha, hg, lookupList_appendCallback_other _ _ _ _ hne]

/-- Witness for the amended claim C8: registering callback 0 for "a" on a
fresh dispatcher. -/
theorem register_appends_and_sets_flag_witness :
    (register_event emptyRegister "a" 0 true).1 = none ∧
    (register_event emptyRegister "a" 0 true).2.lazyFlag 0 = true :=
  ⟨by decide,
    (register_appends_and_sets_flag emptyRegister "a" 0 true "b" 1 (by decide)).1⟩

/-- Claim C10 (confirmed): registering under the synthetic name "all" never
raises `InvalidEvent`, even on a strict dispatcher whose allow-list lacks
"all"; by contrast `emit "all"` on a strict dispatcher raises
`InvalidEvent "all"` exactly when "all" is outside the allow-list. -/
theorem register_all_bypasses_strict (r : EventRegister) (cb : Nat)
    (lazy : Bool) {α : Type} (args : List α) (hs : r.strict = true) :
    (register_event r "all" cb lazy).1 = none ∧
    ("all" ∉ r.eventsList →
      (emit r "all" args).2 = some (.invalidEvent "all")) ∧
    ("all" ∈ r.eventsList → isInvalid (emit r "all" args).2 = false) := by
  refine ⟨by simp [register_event], ?_, ?_⟩
  · intro hnm
    simp [emit, hs, hnm]
  · intro hm
    have hgate : ¬(r.strict = true ∧ "all" ∉ r.eventsList) := by simp [hm]
    unfold emit
    rw [if_neg hgate, runLoops_snd]
    exact isInvalid_allLoop _ _ _ _

/-- Witness for claim C10: a strict dispatcher with allow-list ["x"]. -/
theorem register_all_bypasses_strict_witness :
    (strictRegister ["x"]).strict = true ∧
    (register_event (strictRegister ["x"]) "all" 0 false).1 = none ∧
    ("all" ∉ (strictRegister ["x"]).eventsList →
      (emit (strictRegister ["x"]) "all" ([] : List Nat)).2 =
        some (.invalidEvent "all")) :=
  ⟨rfl,
    (register_all_bypasses_strict (strictRegister ["x"]) 0 false
      ([] : List Nat) rfl).1,
    (register_all_bypasses_strict (strictRegister ["x"]) 0 false
      ([] : List Nat) rfl).2.1⟩

/-! Helper lemmas for the field registry. -/

/-- Reading after a write returns the written value at the written key and
the old value elsewhere. -/
theorem readKey_writeKey {V : Type} (st : List (String × V)) (k key : String)
    (v : V) :
    readKey (writeKey st k v) key = if key = k then some v else readKey st key := by
  induction st with
  | nil =>
    by_cases h : key = k
    · simp [writeKey, readKey, h]
    · simp [writeKey, readKey, h, Ne.symm h]
  | cons p rest ih =>
    obtain ⟨k0, w0⟩ := p
    by_cases h0 : k0 = k
    · subst h0
      by_cases h : key = k0
      · simp [writeKey, readKey, h]
      · simp [writeKey, readKey, h, Ne.symm h]
    · by_cases h : k0 = key
      · subst h
        simp [writeKey, readKey, h0, Ne.symm h0]
      · simp [writeKey, readKey, h0, h, ih]

/-- Saving entries none of which carry the key leaves the key unchanged in
storage. -/
theorem readKey_save_not_mem {V : Type} (entries : List (FieldDecl V × V))
    (st : List (String × V)) (key : String)
    (h : ∀ p ∈ entries, p.1.name ≠ key) :
    readKey (save entries st) key = readKey st key := by
  induction entries generalizing st with
  | nil => rfl
  | cons p rest ih =>
    have hp : p.1.name ≠ key := h p (by simp)
    have hrest : ∀ q ∈ rest, q.1.name ≠ key := fun q hq => h q (by simp [hq])
    calc readKey (save (p :: rest) st) key
        = readKey (save rest (writeKey st p.1.name p.2)) key := rfl
      _ = readKey (writeKey st p.1.name p.2) key := ih _ hrest
      _ = readKey st key := by simp [readKey_writeKey, hp, Ne.symm hp]

/-- Saving an instance whose field names are distinct stores, under each
field name, exactly the current value of that field. -/
theorem readKey_save_mem {V : Type} (entries : List (FieldDecl V × V))
    (st : List (String × V)) (key : String) (v : V)
    (hnd : (entries.map (fun p => p.1.name)).Nodup)
    (hv : getValue entries key = some v) :
    readKey (save entries st) key = some v := by
  induction entries generalizing st with
  | nil => simp [getValue] at hv
  | cons p rest ih =>
    obtain ⟨f, w⟩ := p
    rw [List.map_cons, List.nodup_cons] at hnd
    by_cases h : f.name = key
    · rw [getValue, if_pos h] at hv
      have hw : w = v := by injection hv
      subst hw h
      have hrest : ∀ q ∈ rest, q.1.name ≠ f.name := by
        intro q hq hqe
        exact hnd.1 (hqe ▸ List.mem_map_of_mem (fun p => p.1.name) hq)
      calc readKey (save ((f, w) :: rest) st) f.name
          = readKey (save rest (writeKey st f.name w)) f.name := rfl
        _ = readKey (writeKey st f.name w) f.name := readKey_save_not_mem _ _ _ hrest
        _ = some w := by simp [readKey_writeKey]
    · rw [getValue, if_neg h] at hv
      exact ih (writeKey st f.name w) hnd.2 hv

/-- Membership of a name after `addField`: it was there before or it is the
new field name. -/
theorem mem_names_addField {V : Type} (fs : List (FieldDecl V)) (f : FieldDecl V)
    (x : String) (hx : x ∈ (addField fs f).map (fun g => g.name)) :
    x ∈ fs.map (fun g => g.name) ∨ x = f.name := by
  induction fs with
  | nil =>
    rw [addField, List.map_cons] at hx
    rcases List.mem_cons.mp hx with hx | hx
    · exact Or.inr hx
    · exact absurd hx (by simp)
  | cons g rest ih =>
    by_cases h : g.name = f.name
    · rw [addField, if_pos h, List.map_cons] at hx
      rcases List.mem_cons.mp hx with hx | hx
      · exact Or.inr hx
      · exact Or.inl (by rw [List.map_cons]; exact List.mem_cons_of_mem _ hx)
    · rw [addField, if_neg h, List.map_cons] at hx
      rcases List.mem_cons.mp hx with hx | hx
      · exact Or.inl (by rw [List.map_cons, hx]; exact List.mem_cons_self _ _)
      · rcases ih hx with hy | hy
        · exact Or.inl (by rw [List.map_cons]; exact List.mem_cons_of_mem _ hy)
        · exact Or.inr hy

/-- Merging a field preserves distinctness of the collected field names. -/
theorem addField_nodup {V : Type} (fs : List (FieldDecl V)) (f : FieldDecl V)
    (h : (fs.map (fun g => g.name)).Nodup) :
    ((addField fs f).map (fun g => g.name)).Nodup := by
  induction fs with
  | nil => simp [addField]
  | cons g rest ih =>
    rw [List.map_cons, List.nodup_cons] at h
    by_cases hg : g.name = f.name
    · rw [addField, if_pos hg]
      rw [List.map_cons, List.nodup_cons]
      exact ⟨hg ▸ h.1, h.2⟩
    · rw [addField, if_neg hg]
      rw [List.map_cons, List.nodup_cons]
      refine ⟨?_, ih h.2⟩
      intro hmem
      rcases mem_names_addField rest f g.name hmem with hy | hy
      · exact h.1 hy
      · exact hg hy

/-- Folding a class declaration list into the collected mapping preserves
distinctness of field names. -/
theorem foldl_addField_nodup {V : Type} (cls : List (FieldDecl V))
    (acc : List (FieldDecl V)) (h : (acc.map (fun g => g.name)).Nodup) :
    ((cls.foldl addField acc).map (fun g => g.name)).Nodup := by
  induction cls generalizing acc with
  | nil => exact h
  | cons f rest ih => exact ih _ (addField_nodup _ _ h)

/-- Collected field names are distinct: every field declared anywhere in the
chain is present exactly once, keyed by name. -/
theorem collectFields_nodup {V : Type} (chain : List (List (FieldDecl V))) :
    ((collectFields chain).map (fun g => g.name)).Nodup := by
  have main : ∀ (ch : List (List (FieldDecl V))) (acc : List (FieldDecl V)),
      (acc.map (fun g => g.name)).Nodup →
      ((ch.foldl (fun a cls => cls.foldl addField a) acc).map
        (fun g => g.name)).Nodup := by
    intro ch
    induction ch with
    | nil => intro acc h; exact h
    | cons cls rest ih => intro acc h; exact ih _ (foldl_addField_nodup cls acc h)
  exact main chain [] (by simp)

/-- Reading a name held by no entry yields nothing. -/
theorem getValue_eq_none {V : Type} (es : List (FieldDecl V × V)) (name : String)
    (h : ∀ p ∈ es, p.1.name ≠ name) : getValue es name = none := by
  induction es with
  | nil => rfl
  | cons p rest ih =>
    rw [getValue, if_neg (h p (by simp))]
    exact ih fun q hq => h q (by simp [hq])

/-- Reading a value pins down an entry carrying the name. -/
theorem getValue_some_mem {V : Type} (es : List (FieldDecl V × V)) (name : String)
    (v : V) (h : getValue es name = some v) : ∃ p ∈ es, p.1.name = name := by
  induction es with
  | nil => simp [getValue] at h
  | cons p rest ih =>
    by_cases hp : p.1.name = name
    · exact ⟨p, by simp, hp⟩
    · rw [getValue, if_neg hp] at h
      obtain ⟨q, hq, hqn⟩ := ih h
      exact ⟨q, by simp [hq], hqn⟩

/-- Reading nothing means no entry carries the name. -/
theorem getValue_none_not_mem {V : Type} (es : List (FieldDecl V × V))
    (name : String) (h : getValue es name = none) :
    ∀ p ∈ es, p.1.name ≠ name := by
  induction es with
  | nil => simp
  | cons p rest ih =>
    by_cases hp : p.1.name = name
    · rw [getValue, if_pos hp] at h
      exact absurd h (by simp)
    · rw [getValue, if_neg hp] at h
      intro q hq
      rcases List.mem_cons.mp hq with hq | hq
      · exact hq ▸ hp
      · exact ih h q hq

/-- Reading a freshly constructed instance at a declared field name returns
the stored value when the backend holds one. -/
theorem getValue_construct_some {V : Type} (fs : List (FieldDecl V))
    (st : List (String × V)) (name : String) (v : V)
    (hr : readKey st name = some v) (hex : ∃ f ∈ fs, f.name = name) :
    getValue (fs.map (fun f => (f, (readKey st f.name).getD f.default))) name
      = some v := by
  induction fs with
  | nil => simp at hex
  | cons f rest ih =>
    by_cases hf : f.name = name
    · rw [List.map_cons, getValue, if_pos hf, hf, hr]
      rfl
    · rw [List.map_cons, getValue, if_neg hf]
      obtain ⟨g, hg, hgn⟩ := hex
      rcases List.mem_cons.mp hg with hg | hg
      · exact absurd (hg ▸ hgn) hf
      · exact ih ⟨g, hg, hgn⟩

/-- Assignment leaves the field declarations of the instance unchanged. -/
theorem setValue_decls {V : Type} (es : List (FieldDecl V × V)) (n : String)
    (v : V) (es2 : List (FieldDecl V × V)) (h : setValue es n v = some es2) :
    es2.map (fun p => p.1) = es.map (fun p => p.1) := by
  induction es generalizing es2 with
  | nil => simp [setValue] at h
  | cons p rest ih =>
    obtain ⟨f, w⟩ := p
    by_cases hf : f.name = n
    · rw [setValue, if_pos hf] at h
      by_cases hv : f.valid v
      · rw [if_pos hv] at h
        have : (f, v) :: rest = es2 := by injection h
        subst this
        simp
      · rw [if_neg hv] at h
        exact absurd h (by simp)
    · rw [setValue, if_neg hf] at h
      cases hrec : setValue rest n v with
      | none => rw [hrec] at h; simp at h
      | some es3 =>
        rw [hrec] at h
        simp at h
        subst h
        simp [ih es3 hrec]

/-- A sequence of assignments leaves the field declarations unchanged. -/
theorem applyAssignments_decls {V : Type} (asgn : List (String × V))
    (es es2 : List (FieldDecl V × V)) (h : applyAssignments es asgn = some es2) :
    es2.map (fun p => p.1) = es.map (fun p => p.1) := by
  induction asgn generalizing es with
  | nil =>
    have : es = es2 := by injection h
    subst this; rfl
  | cons a rest ih =>
    obtain ⟨n, v⟩ := a
    rw [applyAssignments] at h
    cases hset : setValue es n v with
    | none => rw [hset] at h; simp at h
    | some es3 =>
      rw [hset] at h
      exact (ih es3 h).trans (setValue_decls es n v es3 hset)

/-- Projecting the field component out of a pairing map gives back the
field list. -/
theorem map_fst_pairing {V : Type} (fs : List (FieldDecl V)) (g : FieldDecl V → V) :
    (fs.map (fun f => (f, g f))).map (fun p => p.1) = fs := by
  induction fs with
  | nil => rfl
  | cons f rest ih => simp [ih]

/-- Fields of a freshly constructed instance are exactly the collected
fields. -/
theorem construct_decls {V : Type} (chain : List (List (FieldDecl V)))
    (st : List (String × V)) :
    (construct chain st).map (fun p => p.1) = collectFields chain := by
  unfold construct
  exact map_fst_pairing _ _

/-- Claim C9 (confirmed, field registry modelled from the spec): for every
configuration class chain, initial storage and sequence of in-domain
assignments, saving the instance and constructing a fresh instance of the
same class reproduces every field value: reading any name on the fresh
instance agrees with reading it on the instance before save. -/
theorem save_roundtrip {V : Type} (chain : List (List (FieldDecl V)))
    (st0 : List (String × V)) (asgn : List (String × V))
    (i1 : List (FieldDecl V × V))
    (h : applyAssignments (construct chain st0) asgn = some i1) (name : String) :
    getValue (construct chain (save i1 st0)) name = getValue i1 name := by
  have hdecl : i1.map (fun p => p.1) = collectFields chain :=
    (applyAssignments_decls asgn _ i1 h).trans (construct_decls chain st0)
  have hnames : i1.map (fun p => p.1.name) = (collectFields chain).map (fun g => g.name) := by
    have := congrArg (List.map (fun g : FieldDecl V => g.name)) hdecl
    simpa [List.map_map, Function.comp] using this
  have hnd : (i1.map (fun p => p.1.name)).Nodup := by
    rw [hnames]; exact collectFields_nodup chain
  cases hv : getValue i1 name with
  | none =>
    have hno : ∀ p ∈ i1, p.1.name ≠ name := getValue_none_not_mem i1 name hv
    have hfs : ∀ f ∈ collectFields chain, f.name ≠ name := by
      intro f hf
      rw [← hdecl] at hf
      obtain ⟨p, hp, hpe⟩ := List.mem_map.mp hf
      exact hpe ▸ hno p hp
    refine getValue_eq_none _ _ ?_
    intro p hp
    unfold construct at hp
    obtain ⟨f, hf, hfe⟩ := List.mem_map.mp hp
    have : p.1 = f := by rw [← hfe]
    rw [this]
    exact hfs f hf
  | some v =>
    have hr : readKey (save i1 st0) name = some v := readKey_save_mem i1 st0 name v hnd hv
    have hex : ∃ f ∈ collectFields chain, f.name = name := by
      obtain ⟨p, hp, hpe⟩ := getValue_some_mem i1 name v hv
      exact ⟨p.1, by rw [← hdecl]; exact List.mem_map_of_mem (fun q => q.1) hp, hpe⟩
    exact getValue_construct_some _ _ _ _ hr hex

/-- Witness for claim C9 at the three-level inheritance chain of the unit
test: assign 42, 7 and 3 to the three fields, save, re-construct, and read
back the leaf-most field. -/
theorem save_roundtrip_witness :
    applyAssignments (construct wChain []) wAsgn = some wInst ∧
    getValue (construct wChain (save wInst [])) "z" = getValue wInst "z" :=
  ⟨rfl, save_roundtrip wChain [] wAsgn wInst rfl "z"⟩

end Gpyconf
